import Mathlib

/-!
Shallow embedding of the declarative XML descriptor framework in
`pptx/oxml/xmlchemy.py` and of the connector endpoint geometry in
`pptx/shapes/connector.py`, together with theorems settling the claims
about them.

Elements are modelled as a tag (Clark-form, namespace-qualified), an
ordered attribute list (Clark-form keys mapped to string values, as in
the lxml `attrib` mapping) and an ordered child list.  Stateful lxml
operations become pure functions returning the updated element.
-/

/-- Modelled from the spec: the namespace prefix map used by `qn` in
`pptx.oxml.ns` (not under src/).  The spec only requires that a
namespace-qualified name is "canonically represented as a single
comparable token"; the concrete URIs are irrelevant to every claim, so
each prefix is mapped to a distinct URI derived from it. -/
def nsUri (pfx : String) : String := "http://ns/" ++ pfx

/-- Split a character list at the first colon, returning the parts
before and after it, or none when no colon occurs. -/
def splitAtColon : List Char → Option (List Char × List Char)
  | [] => none
  | c :: rest =>
    if c = ':' then some ([], rest)
    else (splitAtColon rest).map (fun p => (c :: p.1, p.2))

/-- Modelled from the spec: `qn` from `pptx.oxml.ns` (not under src/),
converting a namespace-prefixed name such as `a:tbl` into the Clark-form
token `\x7buri\x7dtbl`; a name without a colon is returned unchanged. -/
def qn (s : String) : String :=
  match splitAtColon s.data with
  | some (pfx, loc) => "\x7b" ++ nsUri (String.mk pfx) ++ "\x7d" ++ String.mk loc
  | none => s

/-- An XML element: tag and attribute keys are Clark-form strings, the
children are ordered.  This embeds the lxml element as used by
`BaseOxmlElement`. -/
structure Elem where
  tag : String
  attrib : List (String × String)
  children : List Elem
deriving Repr

/-- Replace the value stored under key `k`, or append a new pair when
the key is absent: the behavior of `obj.set(k, v)` on an lxml element. -/
def setPair (k v : String) : List (String × String) → List (String × String)
  | [] => [(k, v)]
  | p :: rest => if p.1 = k then (k, v) :: rest else p :: setPair k v rest

/-- `obj.get(k)`: the value stored under key `k`, or none. -/
def Elem.get (e : Elem) (k : String) : Option String :=
  (e.attrib.find? (fun p => p.1 == k)).map (fun p => p.2)

/-- `obj.set(k, v)`. -/
def Elem.set (e : Elem) (k v : String) : Elem :=
  { e with attrib := setPair k v e.attrib }

/-- `k in obj.attrib`: key membership in the attribute mapping. -/
def Elem.hasAttrib (e : Elem) (k : String) : Bool :=
  e.attrib.any (fun p => p.1 == k)

/-- `del obj.attrib[k]`: remove the pair stored under key `k`. -/
def Elem.delAttrib (e : Elem) (k : String) : Elem :=
  { e with attrib := e.attrib.filter (fun p => !(p.1 == k)) }

/-- `obj.find(qname)`: first direct child with the given (already
Clark-form) tag, or none.  (`lxml` `find` with a plain tag path matches
direct children only, in document order.) -/
def Elem.find (e : Elem) (t : String) : Option Elem :=
  e.children.find? (fun c => c.tag == t)

/-- `obj.findall(qname)`: all direct children with the given tag, in
document order. -/
def Elem.findall (e : Elem) (t : String) : List Elem :=
  e.children.filter (fun c => c.tag == t)

/-- `BaseOxmlElement.first_child_found_in(*tagnames)`: for each tagname
in turn, look up `find(qn(tagname))` and return the first hit; none when
no tagname matches any child. -/
def Elem.first_child_found_in (e : Elem) : List String → Option Elem
  | [] => none
  | t :: rest =>
    match e.find (qn t) with
    | some child => some child
    | none => e.first_child_found_in rest

/-- `successor.addprevious(elm)` where `successor` is the first child
bearing tag `t`: insert `elm` immediately before the first child whose
tag is `t`.  (lxml inserts before the successor node itself; since the
successor returned by `first_child_found_in` is always the first child
bearing its tag, insertion before that node is insertion before the
first child with that tag.) -/
def addpreviousTag (t : String) (elm : Elem) : List Elem → List Elem
  | [] => [elm]
  | c :: rest => if c.tag = t then elm :: c :: rest else c :: addpreviousTag t elm rest

/-- `BaseOxmlElement.insert_element_before(elm, *tagnames)`: find the
successor via `first_child_found_in`; insert `elm` before it when found,
else append `elm` as the last child.  (The source also returns `elm`;
the model returns the updated parent, the callers never use the returned
value for anything except handing back `elm` itself.) -/
def Elem.insert_element_before (e : Elem) (elm : Elem) (tagnames : List String) : Elem :=
  match e.first_child_found_in tagnames with
  | some successor => { e with children := addpreviousTag successor.tag elm e.children }
  | none => { e with children := e.children ++ [elm] }

/-- `BaseOxmlElement.remove_all(tagname)`: `findall(qn(tagname))` then
`remove(child)` for each hit; removing every matching node leaves
exactly the children whose tag differs from `qn(tagname)`, in order. -/
def Elem.remove_all (e : Elem) (tagname : String) : Elem :=
  { e with children := e.children.filter (fun c => !(c.tag == qn tagname)) }

/-- `OxmlElement(nsptag_str)`: a loose element whose tag is the Clark
form of the namespace-prefixed tag, with no attributes, text or
children. -/
def OxmlElement (nsptag : String) : Elem :=
  { tag := qn nsptag, attrib := [], children := [] }

/-- The generated ZeroOrOne getter property: `obj.find(qn(nsptagname))`. -/
def childGetter (nsptagname : String) (e : Elem) : Option Elem :=
  e.find (qn nsptagname)

/-- The generated `<name>_lst` property: `obj.findall(qn(nsptagname))`. -/
def childListGetter (nsptagname : String) (e : Elem) : List Elem :=
  e.findall (qn nsptagname)

/-- The generated `_new_<name>()` method: `OxmlElement(nsptagname)`. -/
def new_child (nsptagname : String) : Elem :=
  OxmlElement nsptagname

/-- The generated `_insert_<name>(child)` method:
`obj.insert_element_before(child, *successors)`. -/
def insert_child (successors : List String) (e : Elem) (child : Elem) : Elem :=
  e.insert_element_before child successors

/-- The generated `_add_<name>()` method as called with no keyword
attributes (the only form the claims exercise): create the child via
`_new_<name>()`, insert it via `_insert_<name>`, return it.  The result
pairs the updated parent with the returned child. -/
def add_child (nsptagname : String) (successors : List String) (e : Elem) : Elem × Elem :=
  (insert_child successors e (new_child nsptagname), new_child nsptagname)

/-- The generated `get_or_add_<name>()` method: return the existing
child when the getter finds one, else `_add_<name>()`. -/
def get_or_add_child (nsptagname : String) (successors : List String) (e : Elem) : Elem × Elem :=
  match childGetter nsptagname e with
  | some child => (e, child)
  | none => add_child nsptagname successors e

/-- The generated `_remove_<name>()` method: `obj.remove_all(nsptagname)`. -/
def remove_child (nsptagname : String) (e : Elem) : Elem :=
  e.remove_all nsptagname

/-- Errors surfaced by the attribute descriptors: `InvalidXmlError`
carrying the attribute name and element tag interpolated into its
message by `RequiredAttribute._getter`, and the `ValueError` /
`TypeError` raised by simple-type converters on invalid assignment. -/
inductive XmlError where
  | invalidXml (attr_name : String) (tag : String)
  | valueError
  | typeError
deriving Repr, DecidableEq

/-- A simple-type converter (external capability consumed by the
descriptors): `from_xml` interprets a stored string, `to_xml` validates
a typed value and renders it, failing on an invalid or out-of-range
input. -/
structure SimpleType (α : Type) where
  from_xml : String → α
  to_xml : α → Except XmlError String

/-- `BaseAttribute._clark_name`: the Clark form of the attribute name
when it contains a colon, the bare name otherwise. -/
def clark_name (attr_name : String) : String :=
  if attr_name.data.any (fun c => c == ':') then qn attr_name else attr_name

/-- `RequiredAttribute._getter`: read the raw string stored under the
Clark name; raise `InvalidXmlError` when absent, else return the
converted value. -/
def required_getter (st : SimpleType α) (attr_name : String) (e : Elem) : Except XmlError α :=
  match e.get (clark_name attr_name) with
  | none => .error (.invalidXml attr_name e.tag)
  | some s => .ok (st.from_xml s)

/-- `RequiredAttribute._setter`: convert the value first (any converter
error propagates before the element is touched), then store the string
under the Clark name.  The pair carries the outcome and the element
state after the call. -/
def required_setter (st : SimpleType α) (attr_name : String) (e : Elem) (v : α) :
    Except XmlError Unit × Elem :=
  match st.to_xml v with
  | .error err => (.error err, e)
  | .ok s => (.ok (), e.set (clark_name attr_name) s)

/-- `OptionalAttribute._getter`: return the configured default when the
attribute is absent, else the converted stored value. -/
def optional_getter [DecidableEq α] (st : SimpleType α) (attr_name : String)
    (default : Option α) (e : Elem) : Option α :=
  match e.get (clark_name attr_name) with
  | none => default
  | some s => some (st.from_xml s)

/-- The clearing branch of `OptionalAttribute._setter`: delete the
attribute when present, no-op otherwise.  Note that both the membership
test and the deletion use the raw declared attribute name
(`self._attr_name`), not the Clark name. -/
def attrib_clear (attr_name : String) (e : Elem) : Elem :=
  if e.hasAttrib attr_name then e.delAttrib attr_name else e

/-- `OptionalAttribute._setter`: when the assigned value is `None` or
equals the configured default, clear the attribute; otherwise convert
and store the string under the Clark name. -/
def optional_setter [DecidableEq α] (st : SimpleType α) (attr_name : String)
    (default : Option α) (e : Elem) (value : Option α) : Except XmlError Unit × Elem :=
  match value with
  | none => (.ok (), attrib_clear attr_name e)
  | some v =>
    if some v = default then (.ok (), attrib_clear attr_name e)
    else
      match st.to_xml v with
      | .error err => (.error err, e)
      | .ok s => (.ok (), e.set (clark_name attr_name) s)

/-- Fold a digit list into a number; none on a non-digit. -/
def natFromCharsAux (acc : Nat) : List Char → Option Nat
  | [] => some acc
  | c :: rest =>
    if c.isDigit then natFromCharsAux (10 * acc + (c.toNat - 48)) rest else none

/-- Parse a nonempty digit string. -/
def natFromChars : List Char → Option Nat
  | [] => none
  | l => natFromCharsAux 0 l

/-- Parse a decimal integer with an optional leading minus sign;
out-of-language strings map to 0 (never exercised by the claims). -/
def intFromString (s : String) : Int :=
  match s.data with
  | '-' :: rest => -(Int.ofNat ((natFromChars rest).getD 0))
  | l => Int.ofNat ((natFromChars l).getD 0)

/-- Modelled from the spec: the bounded-integer simple type of the §8
concrete scenario (`reqAttr`, integer, declared bounds 1..42; the
simple-type classes live in `pptx.oxml.simpletypes`, not under src/).
`to_xml` fails with a value-range error outside the bounds, `from_xml`
parses the stored decimal string. -/
def ST_BoundedInt : SimpleType Int :=
  { from_xml := intFromString
    to_xml := fun v =>
      if 1 ≤ v ∧ v ≤ 42 then .ok (toString v) else .error .valueError }

/-- Modelled from the spec: a pass-through string simple type (for
example a relationship id attribute such as `r:id`); both directions
are the identity and every string is valid. -/
def ST_String : SimpleType String :=
  { from_xml := fun s => s
    to_xml := fun s => .ok s }

/-- A class dictionary modelled by the set of member names it exposes
(values are irrelevant to the claims about name installation and
removal). -/
abbrev ClsDict := List String

/-- `setattr(element_cls, name, value)` viewed on names: ensure the name
is a member. -/
def setattrName (cls : ClsDict) (nm : String) : ClsDict :=
  if nm ∈ cls then cls else cls ++ [nm]

/-- `_BaseChildElement._add_to_class(name, method)`: install under
`name` unless the class already has a member of that name (explicit
overrides are never clobbered).  On names this again just ensures
membership. -/
def add_to_class (cls : ClsDict) (nm : String) : ClsDict :=
  if nm ∈ cls then cls else cls ++ [nm]

/-- `delattr(element_cls, prop_name)` viewed on names: drop the name. -/
def delattrName (cls : ClsDict) (nm : String) : ClsDict :=
  cls.filter (fun m => !(m == nm))

/-- `ZeroOrMore.populate_class_members(element_cls, prop_name)`: install
the list getter (`setattr` under `prop_name + "_lst"`), the creator,
inserter and adder (each via `_add_to_class`), then `delattr` the bare
property name. -/
def populateZeroOrMore (cls : ClsDict) (prop_name : String) : ClsDict :=
  delattrName
    (add_to_class
      (add_to_class
        (add_to_class (setattrName cls (prop_name ++ "_lst")) ("_new_" ++ prop_name))
        ("_insert_" ++ prop_name))
      ("_add_" ++ prop_name))
    prop_name

/-- The `p:cxnSp` element state read and written by the `Connector`
endpoint properties: offset `x`,`y`, extents `cx`,`cy` and the flip
flags, all integer EMU values (the `Emu` wrapper is an int subclass and
is modelled by the underlying integer). -/
structure CxnSp where
  x : Int
  y : Int
  cx : Int
  cy : Int
  flipH : Bool
  flipV : Bool
deriving Repr, DecidableEq

/-- Python `abs` on an integer. -/
def pyabs (n : Int) : Int := if n < 0 then -n else n

/-- `Connector.begin_x` getter: `x+cx` when flipped horizontally, else
`x`. -/
def begin_x (c : CxnSp) : Int := if c.flipH then c.x + c.cx else c.x

/-- `Connector.end_x` getter: `x` when flipped horizontally, else
`x+cx`. -/
def end_x (c : CxnSp) : Int := if c.flipH then c.x else c.x + c.cx

/-- `Connector.begin_y` getter. -/
def begin_y (c : CxnSp) : Int := if c.flipV then c.y + c.cy else c.y

/-- `Connector.end_y` getter. -/
def end_y (c : CxnSp) : Int := if c.flipV then c.y else c.y + c.cy

/-- `Connector.begin_x` setter. -/
def set_begin_x (c : CxnSp) (new_x : Int) : CxnSp :=
  if c.flipH then
    let old_x := c.x + c.cx
    let dx := pyabs (new_x - old_x)
    if new_x ≥ old_x then { c with cx := c.cx + dx }
    else if dx ≤ c.cx then { c with cx := c.cx - dx }
    else { c with flipH := false, x := new_x, cx := dx - c.cx }
  else
    let dx := pyabs (new_x - c.x)
    if new_x ≤ c.x then { c with x := new_x, cx := c.cx + dx }
    else if dx ≤ c.cx then { c with x := new_x, cx := c.cx - dx }
    else { c with flipH := true, x := c.x + c.cx, cx := dx - c.cx }

/-- `Connector.begin_y` setter. -/
def set_begin_y (c : CxnSp) (new_y : Int) : CxnSp :=
  if c.flipV then
    let old_y := c.y + c.cy
    let dy := pyabs (new_y - old_y)
    if new_y ≥ old_y then { c with cy := c.cy + dy }
    else if dy ≤ c.cy then { c with cy := c.cy - dy }
    else { c with flipV := false, y := new_y, cy := dy - c.cy }
  else
    let dy := pyabs (new_y - c.y)
    if new_y ≤ c.y then { c with y := new_y, cy := c.cy + dy }
    else if dy ≤ c.cy then { c with y := new_y, cy := c.cy - dy }
    else { c with flipV := true, y := c.y + c.cy, cy := dy - c.cy }

/-- `Connector.end_x` setter. -/
def set_end_x (c : CxnSp) (new_x : Int) : CxnSp :=
  if c.flipH then
    let dx := pyabs (new_x - c.x)
    if new_x ≤ c.x then { c with x := new_x, cx := c.cx + dx }
    else if dx ≤ c.cx then { c with x := new_x, cx := c.cx - dx }
    else { c with flipH := false, x := c.x + c.cx, cx := dx - c.cx }
  else
    let old_x := c.x + c.cx
    let dx := pyabs (new_x - old_x)
    if new_x ≥ old_x then { c with cx := c.cx + dx }
    else if dx ≤ c.cx then { c with cx := c.cx - dx }
    else { c with flipH := true, x := new_x, cx := dx - c.cx }

/-- The rank of a child against a successor list: the index of the
first successor tag whose Clark form equals the tag of the child, none
when no successor tag matches.  A parent whose successor-tagged children
appear in ascending rank order is in content-model order. -/
def succRank (succs : List String) (c : Elem) : Option Nat :=
  match succs with
  | [] => none
  | t :: rest => if qn t = c.tag then some 0 else (succRank rest c).map (fun k => k + 1)

/-- Rank comparison: true unless both children match successor tags and
the first has a strictly larger rank. -/
def rankLE (succs : List String) (c1 c2 : Elem) : Bool :=
  match succRank succs c1, succRank succs c2 with
  | some k1, some k2 => decide (k1 ≤ k2)
  | _, _ => true

/-- The amended reading of `first_child_found_in`: for the earliest
tagname in the argument list that has any matching direct child, return
the first child (document order) bearing that tag; none when no tagname
matches any child. -/
def firstChildMatchingSpec (e : Elem) : List String → Option Elem
  | [] => none
  | t :: rest =>
    if e.children.any (fun c => c.tag == qn t) then e.find (qn t)
    else firstChildMatchingSpec e rest

/-- The claimed behavior of `first_child_found_in` stated from the
claim: the first direct child in document order whose tag is any of the
given names. -/
def firstChildDocOrder (e : Elem) (ts : List String) : Option Elem :=
  e.children.find? (fun c => ts.any (fun t => c.tag == qn t))

/-- Number of direct children bearing the given (Clark-form) tag. -/
def countTag (e : Elem) (t : String) : Nat :=
  (e.children.filter (fun c => c.tag == t)).length

/-- A loose `tagA` element (the claims use colon-free invented tags, for
which the Clark form is the name itself). -/
def tagAElem : Elem := { tag := "a", attrib := [], children := [] }

/-- A loose `tagB` element. -/
def tagBElem : Elem := { tag := "b", attrib := [], children := [] }

/-- A loose `tagC` element. -/
def tagCElem : Elem := { tag := "c", attrib := [], children := [] }

/-- A parent whose children are `[tagC, tagB]`: the successor-tagged
children appear in the reverse of the successor-list order
`(tagB, tagC)`. -/
def parentCB : Elem := { tag := "parent", attrib := [], children := [tagCElem, tagBElem] }

/-- A parent currently containing `[tagC]` only, as in the ordering
scenario of the spec. -/
def parentC : Elem := { tag := "parent", attrib := [], children := [tagCElem] }

/-- A `p:parent` element carrying no attributes and no children. -/
def noAttrParent : Elem := { tag := qn "p:parent", attrib := [], children := [] }

/-- A `p:parent` element with `reqAttr="5"` (the attribute name is
colon-free, so its Clark form is the name itself). -/
def withAttrParent : Elem := { tag := qn "p:parent", attrib := [("reqAttr", "5")], children := [] }

/-- An element carrying the namespace-qualified attribute `r:id` with
value `rId1`, stored (as lxml does) under its Clark-form key. -/
def ridElem : Elem := { tag := qn "p:x", attrib := [(clark_name "r:id", "rId1")], children := [] }

/-- A concrete connector element state for the C10 witness. -/
def cxnEx : CxnSp := { x := 10, y := 20, cx := 5, cy := 6, flipH := true, flipV := false }

/-- `Connector.end_y` setter. -/
def set_end_y (c : CxnSp) (new_y : Int) : CxnSp :=
  if c.flipV then
    let dy := pyabs (new_y - c.y)
    if new_y ≤ c.y then { c with y := new_y, cy := c.cy + dy }
    else if dy ≤ c.cy then { c with y := new_y, cy := c.cy - dy }
    else { c with flipV := false, y := c.y + c.cy, cy := dy - c.cy }
  else
    let old_y := c.y + c.cy
    let dy := pyabs (new_y - old_y)
    if new_y ≥ old_y then { c with cy := c.cy + dy }
    else if dy ≤ c.cy then { c with cy := c.cy - dy }
    else { c with flipV := true, y := new_y, cy := dy - c.cy }

/-! ## Helper lemmas -/

theorem find_eq_some_split {α : Type} {p : α → Bool} :
    ∀ {l : List α} {s : α}, l.find? p = some s →
      ∃ pre post, l = pre ++ s :: post ∧ (∀ c ∈ pre, p c = false) ∧ p s = true := by
  intro l
  induction l with
  | nil => intro s h; simp at h
  | cons c rest ih =>
    intro s h
    cases hc : p c with
    | true =>
      have hcs : c = s := by
        rw [List.find?_cons_of_pos rest hc] at h
        exact Option.some.inj h
      subst hcs
      exact ⟨[], rest, rfl, by simp, hc⟩
    | false =>
      have h2 : rest.find? p = some s := by
        rw [List.find?_cons_of_neg rest (by simp [hc])] at h
        exact h
      obtain ⟨pre, post, heq, hfree, hp⟩ := ih h2
      refine ⟨c :: pre, post, by simp [heq], ?_, hp⟩
      intro x hx
      rcases List.mem_cons.mp hx with h1 | h1
      · subst h1; exact hc
      · exact hfree x h1

theorem find_append_first {α : Type} {p : α → Bool} :
    ∀ {pre : List α} {x : α} (post : List α),
      (∀ c ∈ pre, p c = false) → p x = true →
      (pre ++ x :: post).find? p = some x := by
  intro pre
  induction pre with
  | nil => intro x post _ hx; simpa using List.find?_cons_of_pos post hx
  | cons c rest ih =>
    intro x post hfree hx
    have hc : p c = false := hfree c (List.mem_cons_self c rest)
    rw [List.cons_append, List.find?_cons_of_neg _ (by simp [hc])]
    exact ih post (fun y hy => hfree y (List.mem_cons_of_mem c hy)) hx

theorem setPair_find_self (k v : String) :
    ∀ l : List (String × String),
      (setPair k v l).find? (fun p => p.1 == k) = some (k, v) := by
  intro l
  induction l with
  | nil => simp [setPair, List.find?]
  | cons p rest ih =>
    by_cases hp : p.1 = k
    · simp only [setPair, if_pos hp]
      exact List.find?_cons_of_pos _ (by simp)
    · simp only [setPair, if_neg hp]
      rw [List.find?_cons_of_neg _ (by simp [hp])]
      exact ih

theorem get_set_self (e : Elem) (k v : String) : (e.set k v).get k = some v := by
  simp [Elem.get, Elem.set, setPair_find_self]

theorem fcfi_none {e : Elem} :
    ∀ {ts : List String}, e.first_child_found_in ts = none →
      ∀ t ∈ ts, ∀ c ∈ e.children, c.tag ≠ qn t := by
  intro ts
  induction ts with
  | nil => intro _ t ht; simp at ht
  | cons t rest ih =>
    intro h
    cases hf : e.find (qn t) with
    | some c => simp [Elem.first_child_found_in, hf] at h
    | none =>
      have h2 : e.first_child_found_in rest = none := by
        simpa [Elem.first_child_found_in, hf] using h
      intro u hu c hc
      rcases List.mem_cons.mp hu with h1 | h1
      · subst h1
        have hn : e.children.find? (fun x => x.tag == qn u) = none := hf
        have := List.find?_eq_none.mp hn c hc
        simpa using this
      · exact ih h2 u h1 c hc

theorem fcfi_some {e : Elem} :
    ∀ {ts : List String} {s : Elem}, e.first_child_found_in ts = some s →
      ∃ ts1 t ts2, ts = ts1 ++ t :: ts2 ∧
        (∀ u ∈ ts1, ∀ c ∈ e.children, c.tag ≠ qn u) ∧
        e.find (qn t) = some s := by
  intro ts
  induction ts with
  | nil => intro s h; simp [Elem.first_child_found_in] at h
  | cons t rest ih =>
    intro s h
    cases hf : e.find (qn t) with
    | some c =>
      have hcs : c = s := by
        have := h
        simp only [Elem.first_child_found_in, hf] at this
        exact Option.some.inj this
      subst hcs
      exact ⟨[], t, rest, rfl, by simp, hf⟩
    | none =>
      have h2 : e.first_child_found_in rest = some s := by
        simpa [Elem.first_child_found_in, hf] using h
      obtain ⟨ts1, t2, ts2, heq, hfree, hfind⟩ := ih h2
      refine ⟨t :: ts1, t2, ts2, by simp [heq], ?_, hfind⟩
      intro u hu c hc
      rcases List.mem_cons.mp hu with h1 | h1
      · subst h1
        have hn : e.children.find? (fun x => x.tag == qn u) = none := hf
        have := List.find?_eq_none.mp hn c hc
        simpa using this
      · exact hfree u h1 c hc

theorem addpreviousTag_split {t : String} {s : Elem} (elm : Elem) :
    ∀ (pre post : List Elem), (∀ c ∈ pre, c.tag ≠ t) → s.tag = t →
      addpreviousTag t elm (pre ++ s :: post) = pre ++ elm :: s :: post := by
  intro pre
  induction pre with
  | nil =>
    intro post _ hs
    simp [addpreviousTag, hs]
  | cons c rest ih =>
    intro post hfree hs
    have hc : c.tag ≠ t := hfree c (List.mem_cons_self c rest)
    simp only [List.cons_append, addpreviousTag, List.append_eq, if_neg hc]
    rw [ih post (fun y hy => hfree y (List.mem_cons_of_mem c hy)) hs]

theorem insert_decomp (e elm : Elem) (ts : List String) :
    ∃ pre post, (e.insert_element_before elm ts).children = pre ++ elm :: post ∧
      e.children = pre ++ post := by
  cases hf : e.first_child_found_in ts with
  | none =>
    exact ⟨e.children, [], by simp [Elem.insert_element_before, hf], by simp⟩
  | some s =>
    obtain ⟨ts1, t, ts2, hts, hts1free, hfind⟩ := fcfi_some hf
    obtain ⟨pre, post, hch, hpre, hps⟩ := find_eq_some_split (by simpa [Elem.find] using hfind)
    have hstag : s.tag = qn t := by simpa using hps
    have hprene : ∀ c ∈ pre, c.tag ≠ s.tag := by
      intro c hc
      have := hpre c hc
      simp only [beq_eq_false_iff_ne, ne_eq] at this
      rw [hstag]; exact this
    refine ⟨pre, s :: post, ?_, hch⟩
    simp only [Elem.insert_element_before, hf]
    rw [hch]
    exact addpreviousTag_split elm pre post hprene rfl

theorem succRank_exists_of_mem {succs : List String} {u : String} {c : Elem} :
    u ∈ succs → qn u = c.tag → ∃ k, succRank succs c = some k := by
  induction succs with
  | nil => intro hu; simp at hu
  | cons t rest ih =>
    intro hu hq
    by_cases ht : qn t = c.tag
    · exact ⟨0, by simp [succRank, ht]⟩
    · rcases List.mem_cons.mp hu with h1 | h1
      · subst h1; exact absurd hq ht
      · obtain ⟨k, hk⟩ := ih h1 hq
        exact ⟨k + 1, by simp [succRank, ht, hk]⟩

theorem succRank_le_of_pivot {t : String} {ts2 : List String} {c : Elem} (h : qn t = c.tag) :
    ∀ ts1 : List String, ∃ k, succRank (ts1 ++ t :: ts2) c = some k ∧ k ≤ ts1.length := by
  intro ts1
  induction ts1 with
  | nil => exact ⟨0, by simp [succRank, h], Nat.zero_le _⟩
  | cons u rest ih =>
    by_cases hu : qn u = c.tag
    · exact ⟨0, by simp [succRank, hu], Nat.zero_le _⟩
    · obtain ⟨k, hk, hle⟩ := ih
      refine ⟨k + 1, by simp [succRank, hu, hk], ?_⟩
      simpa using Nat.succ_le_succ hle

theorem succRank_ge_of_prefix_free {t : String} {ts2 : List String} {c : Elem} :
    ∀ (ts1 : List String) {k : Nat},
      (∀ u ∈ ts1, qn u ≠ c.tag) → qn t ≠ c.tag →
      succRank (ts1 ++ t :: ts2) c = some k → ts1.length + 1 ≤ k := by
  intro ts1
  induction ts1 with
  | nil =>
    intro k _ ht h
    simp only [List.nil_append, succRank, if_neg ht] at h
    cases h2 : succRank ts2 c with
    | none => rw [h2] at h; simp at h
    | some k2 =>
      rw [h2] at h
      simp only [List.length_nil]
      simp at h
      omega
  | cons u rest ih =>
    intro k hfree ht h
    have hu : qn u ≠ c.tag := hfree u (List.mem_cons_self u rest)
    simp only [List.cons_append, List.append_eq, succRank, if_neg hu] at h
    cases h2 : succRank (rest ++ t :: ts2) c with
    | none => rw [h2] at h; simp at h
    | some k2 =>
      rw [h2] at h
      simp at h
      have := ih (fun y hy => hfree y (List.mem_cons_of_mem u hy)) ht h2
      simp only [List.length_cons]
      omega

theorem string_append_right_ne (s suf : String) (h : suf.length ≠ 0) : s ++ suf ≠ s := by
  intro hc
  have h2 := congrArg String.length hc
  rw [String.length_append] at h2
  omega

theorem string_append_left_ne (pre s : String) (h : pre.length ≠ 0) : pre ++ s ≠ s := by
  intro hc
  have h2 := congrArg String.length hc
  rw [String.length_append] at h2
  omega

theorem mem_setattrName_self (cls : ClsDict) (nm : String) : nm ∈ setattrName cls nm := by
  by_cases h : nm ∈ cls
  · simp [setattrName, h]
  · simp [setattrName, h]

theorem mem_setattrName_of_mem {cls : ClsDict} {m : String} (nm : String) (h : m ∈ cls) :
    m ∈ setattrName cls nm := by
  by_cases h2 : nm ∈ cls
  · simp [setattrName, h2, h]
  · simp [setattrName, h2, h]

theorem mem_add_to_class_self (cls : ClsDict) (nm : String) : nm ∈ add_to_class cls nm := by
  by_cases h : nm ∈ cls
  · simp [add_to_class, h]
  · simp [add_to_class, h]

theorem mem_add_to_class_of_mem {cls : ClsDict} {m : String} (nm : String) (h : m ∈ cls) :
    m ∈ add_to_class cls nm := by
  by_cases h2 : nm ∈ cls
  · simp [add_to_class, h2, h]
  · simp [add_to_class, h2, h]

theorem mem_delattrName {cls : ClsDict} {m : String} (nm : String) (h : m ∈ cls) (hne : m ≠ nm) :
    m ∈ delattrName cls nm := by
  simp [delattrName, List.mem_filter, h, hne]

theorem not_mem_delattrName (cls : ClsDict) (nm : String) : nm ∉ delattrName cls nm := by
  intro h
  have := (List.mem_filter.mp h).2
  simp at this

/-! ## Claim theorems -/

/-- Claim C2, amended: `first_child_found_in` scans the given tag names
in argument order and returns, for the earliest tag name that has any
matching direct child, the first child in document order bearing that
tag (not the first matching child in document order across all names);
it returns none exactly when no direct child matches any of the names. -/
theorem claim_C2_first_child_found_in (e : Elem) (ts : List String) :
    e.first_child_found_in ts = firstChildMatchingSpec e ts := by
  induction ts with
  | nil => rfl
  | cons t rest ih =>
    cases hf : e.find (qn t) with
    | some c =>
      have hn : e.children.find? (fun x => x.tag == qn t) = some c := hf
      have hmem : c ∈ e.children := List.mem_of_find?_eq_some hn
      have hp := List.find?_some hn
      have hany : e.children.any (fun x => x.tag == qn t) = true :=
        List.any_eq_true.mpr ⟨c, hmem, hp⟩
      simp [Elem.first_child_found_in, hf, firstChildMatchingSpec, hany]
    | none =>
      have hn : e.children.find? (fun x => x.tag == qn t) = none := hf
      have hany : e.children.any (fun x => x.tag == qn t) = false :=
        List.any_eq_false.mpr (List.find?_eq_none.mp hn)
      simp [Elem.first_child_found_in, hf, firstChildMatchingSpec, hany, ih]

/-- Counterexample for claim C2 as stated: with children `[tagC, tagB]`
and tag names `(b, c)`, the code returns the `b` child (the first name
with a match wins), while the first matching child in document order is
the `c` child; the two children are distinct, bearing different tags. -/
theorem claim_C2_counterexample :
    parentCB.first_child_found_in ["b", "c"] = some tagBElem ∧
    firstChildDocOrder parentCB ["b", "c"] = some tagCElem ∧
    tagBElem.tag ≠ tagCElem.tag :=
  ⟨rfl, rfl, by decide⟩

/-- Claim C3: for every required attribute, the generated getter fails
with `InvalidXmlError` when the attribute is absent, and returns the
converter `from_xml` of the stored string when present. -/
theorem claim_C3_required_getter {α : Type} (st : SimpleType α) (attr_name : String) (e : Elem) :
    (e.get (clark_name attr_name) = none →
      required_getter st attr_name e = .error (.invalidXml attr_name e.tag)) ∧
    (∀ s, e.get (clark_name attr_name) = some s →
      required_getter st attr_name e = .ok (st.from_xml s)) := by
  constructor
  · intro h; simp [required_getter, h]
  · intro s h; simp [required_getter, h]

/-- Witness for claim C3 at concrete inputs: reading `reqAttr` on a
`p:parent` with no attributes raises, and reading it on
`<p:parent reqAttr="5"/>` yields the integer 5. -/
theorem claim_C3_witness :
    required_getter ST_BoundedInt "reqAttr" noAttrParent =
      .error (.invalidXml "reqAttr" (qn "p:parent")) ∧
    required_getter ST_BoundedInt "reqAttr" withAttrParent = .ok 5 :=
  ⟨(claim_C3_required_getter ST_BoundedInt "reqAttr" noAttrParent).1 rfl,
   ((claim_C3_required_getter ST_BoundedInt "reqAttr" withAttrParent).2 "5" rfl).trans rfl⟩

/-- Claim C4: for every required attribute, a set whose value the
converter rejects fails with that converter error and leaves the element
exactly as it was (the conversion happens before any mutation). -/
theorem claim_C4_required_setter_atomic {α : Type} (st : SimpleType α) (attr_name : String)
    (e : Elem) (v : α) (err : XmlError) (h : st.to_xml v = .error err) :
    required_setter st attr_name e v = (.error err, e) := by
  simp [required_setter, h]

/-- Witness for claim C4: assigning 50 to `reqAttr` (bounds 1..42) on
`<p:parent reqAttr="5"/>` fails with a value-range error and the element
still carries `reqAttr="5"`. -/
theorem claim_C4_witness :
    required_setter ST_BoundedInt "reqAttr" withAttrParent 50 = (.error .valueError, withAttrParent) ∧
    (required_setter ST_BoundedInt "reqAttr" withAttrParent 50).2.get "reqAttr" = some "5" :=
  ⟨claim_C4_required_setter_atomic ST_BoundedInt "reqAttr" withAttrParent 50 .valueError rfl,
   by
    rw [claim_C4_required_setter_atomic ST_BoundedInt "reqAttr" withAttrParent 50 .valueError rfl]
    rfl⟩

/-- Claim C5 at the failing input: for the namespace-qualified optional
attribute `r:id` (default `rId1`) present on the element, assigning the
default leaves the element unchanged and the attribute still stored,
because the clearing branch tests and deletes the raw name `r:id` while
the attribute is stored under its Clark-form key. -/
theorem claim_C5_bug :
    (optional_setter ST_String "r:id" (some "rId1") ridElem (some "rId1")).2 = ridElem ∧
    (optional_setter ST_String "r:id" (some "rId1") ridElem (some "rId1")).2.get
      (clark_name "r:id") = some "rId1" ∧
    ridElem.hasAttrib (clark_name "r:id") = true ∧
    ridElem.hasAttrib "r:id" = false ∧
    clark_name "r:id" ≠ "r:id" :=
  ⟨rfl, rfl, rfl, rfl, by decide⟩

/-- Claim C6: for every optional attribute with default D, reading on an
element without the attribute returns D unconverted; and for every valid
value v distinct from D (valid: `to_xml` accepts it, and the converter
round-trips it), assigning v and then reading returns v. -/
theorem claim_C6_optional_roundtrip {α : Type} [DecidableEq α] (st : SimpleType α)
    (attr_name : String) (dflt : Option α) (e : Elem) (v : α) (s : String) :
    (e.get (clark_name attr_name) = none → optional_getter st attr_name dflt e = dflt) ∧
    (st.to_xml v = .ok s → st.from_xml s = v → some v ≠ dflt →
      optional_getter st attr_name dflt
        (optional_setter st attr_name dflt e (some v)).2 = some v) := by
  constructor
  · intro h; simp [optional_getter, h]
  · intro hok hround hne
    simp only [optional_setter, if_neg hne, hok]
    simp [optional_getter, get_set_self, hround]

/-- Witness for claim C6: with the bounded-integer attribute and default
1, reading an attribute-less element yields 1, and assigning 5 then
reading yields 5. -/
theorem claim_C6_witness :
    optional_getter ST_BoundedInt "optAttr" (some 1) noAttrParent = some 1 ∧
    optional_getter ST_BoundedInt "optAttr" (some 1)
      (optional_setter ST_BoundedInt "optAttr" (some 1) noAttrParent (some 5)).2 = some 5 :=
  ⟨(claim_C6_optional_roundtrip ST_BoundedInt "optAttr" (some 1) noAttrParent 5 "5").1 rfl,
   (claim_C6_optional_roundtrip ST_BoundedInt "optAttr" (some 1) noAttrParent 5 "5").2
     rfl rfl (by decide)⟩

/-- Claim C7: for every zero-or-one child descriptor, `get_or_add` is
idempotent: the second call returns the same element state and the same
child that the first call produced, and when no matching child existed
the first call creates and inserts exactly one. -/
theorem claim_C7_get_or_add_idempotent (ns : String) (succs : List String) (e : Elem) :
    get_or_add_child ns succs (get_or_add_child ns succs e).1 = get_or_add_child ns succs e ∧
    (childGetter ns e = none →
      countTag (get_or_add_child ns succs e).1 (qn ns) = 1 ∧ countTag e (qn ns) = 0) := by
  cases h : childGetter ns e with
  | some c =>
    constructor
    · simp [get_or_add_child, h]
    · intro hn; exact absurd hn (by simp)
  | none =>
    have hgoa : get_or_add_child ns succs e =
        (insert_child succs e (new_child ns), new_child ns) := by
      simp [get_or_add_child, h, add_child]
    obtain ⟨pre, post, h1, h2⟩ := insert_decomp e (new_child ns) succs
    have hfalse : ∀ c ∈ e.children, (c.tag == qn ns) = false := by
      have hn : e.children.find? (fun c => c.tag == qn ns) = none := h
      intro c hc
      have := List.find?_eq_none.mp hn c hc
      simpa using this
    have hpre : ∀ c ∈ pre, (c.tag == qn ns) = false := fun c hc =>
      hfalse c (by rw [h2]; exact List.mem_append_left _ hc)
    have hpost : ∀ c ∈ post, (c.tag == qn ns) = false := fun c hc =>
      hfalse c (by rw [h2]; exact List.mem_append_right _ hc)
    have hnewtag : ((new_child ns).tag == qn ns) = true := by
      simp [new_child, OxmlElement]
    have hget1 : childGetter ns (insert_child succs e (new_child ns)) = some (new_child ns) := by
      have : (insert_child succs e (new_child ns)).children = pre ++ new_child ns :: post := h1
      show (insert_child succs e (new_child ns)).children.find?
        (fun c => c.tag == qn ns) = some (new_child ns)
      rw [this]
      exact find_append_first post hpre hnewtag
    constructor
    · rw [hgoa]
      simp [get_or_add_child, hget1]
    · intro _
      constructor
      · rw [hgoa]
        show ((e.insert_element_before (new_child ns) succs).children.filter
          (fun c => c.tag == qn ns)).length = 1
        have e1 : pre.filter (fun c => c.tag == qn ns) = [] :=
          List.filter_eq_nil_iff.mpr (by intro a ha; simp [hpre a ha])
        have e2 : post.filter (fun c => c.tag == qn ns) = [] :=
          List.filter_eq_nil_iff.mpr (by intro a ha; simp [hpost a ha])
        rw [h1, List.filter_append]
        simp [List.filter_cons, hnewtag, e1, e2]
      · show (e.children.filter (fun c => c.tag == qn ns)).length = 0
        rw [List.filter_eq_nil_iff.mpr (by intro a ha; simp [hfalse a ha])]
        rfl

/-- Witness for claim C7: on an empty `p:parent`, `get_or_add_zooChild`
creates exactly one `p:zooChild`, and a second call returns the same
state and child. -/
theorem claim_C7_witness :
    countTag (get_or_add_child "p:zooChild" [] noAttrParent).1 (qn "p:zooChild") = 1 ∧
    countTag noAttrParent (qn "p:zooChild") = 0 :=
  (claim_C7_get_or_add_idempotent "p:zooChild" [] noAttrParent).2 rfl

/-- Claim C8: for every zero-or-one child descriptor and element state,
the generated remover removes every direct child bearing the descriptor
tag (so the getter then returns none), and it is a no-op when no
matching child is present. -/
theorem claim_C8_remover (ns : String) (e : Elem) :
    childGetter ns (remove_child ns e) = none ∧
    (∀ c ∈ (remove_child ns e).children, c.tag ≠ qn ns) ∧
    ((∀ c ∈ e.children, c.tag ≠ qn ns) → remove_child ns e = e) := by
  refine ⟨?_, ?_, ?_⟩
  · show (remove_child ns e).children.find? (fun c => c.tag == qn ns) = none
    rw [List.find?_eq_none]
    intro x hx
    have := (List.mem_filter.mp hx).2
    simpa using this
  · intro c hc
    have := (List.mem_filter.mp hc).2
    simpa using this
  · intro h
    obtain ⟨tg, att, ch⟩ := e
    show ({ tag := tg, attrib := att, children := ch.filter (fun c => !(c.tag == qn ns)) } : Elem) =
      { tag := tg, attrib := att, children := ch }
    rw [List.filter_eq_self.mpr (by intro a ha; simpa using h a ha)]

/-- Witness for claim C8: removing `p:zooChild` from a parent that has
one removes it (getter returns none), and removing it from a parent with
only a `tagC` child leaves the element untouched. -/
theorem claim_C8_witness :
    childGetter "p:zooChild" (remove_child "p:zooChild" noAttrParent) = none ∧
    remove_child "c" parentCB ≠ parentCB ∧
    remove_child "p:zooChild" parentC = parentC :=
  ⟨(claim_C8_remover "p:zooChild" noAttrParent).1,
   by intro h; exact absurd (congrArg (fun x => x.children.length) h) (by decide),
   (claim_C8_remover "p:zooChild" parentC).2.2 (by decide)⟩

/-- Claim C9: after `ZeroOrMore.populate_class_members`, the bare
declared property name is no longer a member of the element class, while
the generated `<name>_lst`, `_new_<name>`, `_insert_<name>` and
`_add_<name>` members are present. -/
theorem claim_C9_zom_removes_prop (cls : ClsDict) (prop_name : String) (_h : prop_name ∈ cls) :
    prop_name ∉ populateZeroOrMore cls prop_name ∧
    (prop_name ++ "_lst") ∈ populateZeroOrMore cls prop_name ∧
    ("_new_" ++ prop_name) ∈ populateZeroOrMore cls prop_name ∧
    ("_insert_" ++ prop_name) ∈ populateZeroOrMore cls prop_name ∧
    ("_add_" ++ prop_name) ∈ populateZeroOrMore cls prop_name := by
  unfold populateZeroOrMore
  refine ⟨not_mem_delattrName _ _, ?_, ?_, ?_, ?_⟩
  · refine mem_delattrName _ ?_ (string_append_right_ne _ _ (by decide))
    exact mem_add_to_class_of_mem _ (mem_add_to_class_of_mem _
      (mem_add_to_class_of_mem _ (mem_setattrName_self _ _)))
  · refine mem_delattrName _ ?_ (string_append_left_ne _ _ (by decide))
    exact mem_add_to_class_of_mem _ (mem_add_to_class_of_mem _ (mem_add_to_class_self _ _))
  · refine mem_delattrName _ ?_ (string_append_left_ne _ _ (by decide))
    exact mem_add_to_class_of_mem _ (mem_add_to_class_self _ _)
  · exact mem_delattrName _ (mem_add_to_class_self _ _)
      (string_append_left_ne _ _ (by decide))

/-- Witness for claim C9: instrumenting a class that declares `zomChild`
leaves exactly the four generated members and drops the bare name. -/
theorem claim_C9_witness :
    "zomChild" ∉ populateZeroOrMore ["zomChild"] "zomChild" ∧
    "zomChild_lst" ∈ populateZeroOrMore ["zomChild"] "zomChild" :=
  ⟨(claim_C9_zom_removes_prop ["zomChild"] "zomChild" (by decide)).1,
   (claim_C9_zom_removes_prop ["zomChild"] "zomChild" (by decide)).2.1⟩

theorem set_begin_x_ok (c : CxnSp) (v : Int) (h : 0 ≤ c.cx) :
    begin_x (set_begin_x c v) = v ∧ end_x (set_begin_x c v) = end_x c ∧
    0 ≤ (set_begin_x c v).cx ∧ (set_begin_x c v).y = c.y ∧
    (set_begin_x c v).cy = c.cy ∧ (set_begin_x c v).flipV = c.flipV := by
  obtain ⟨x, y, cx, cy, fH, fV⟩ := c
  simp only at h
  cases fH <;>
    rw [set_begin_x] <;>
    simp only [pyabs] <;>
    split_ifs <;>
    simp only [begin_x, end_x] <;>
    simp_all <;> omega

theorem set_end_x_ok (c : CxnSp) (v : Int) (h : 0 ≤ c.cx) :
    end_x (set_end_x c v) = v ∧ begin_x (set_end_x c v) = begin_x c ∧
    0 ≤ (set_end_x c v).cx ∧ (set_end_x c v).y = c.y ∧
    (set_end_x c v).cy = c.cy ∧ (set_end_x c v).flipV = c.flipV := by
  obtain ⟨x, y, cx, cy, fH, fV⟩ := c
  simp only at h
  cases fH <;>
    rw [set_end_x] <;>
    simp only [pyabs] <;>
    split_ifs <;>
    simp only [begin_x, end_x] <;>
    simp_all <;> omega

theorem set_begin_y_ok (c : CxnSp) (v : Int) (h : 0 ≤ c.cy) :
    begin_y (set_begin_y c v) = v ∧ end_y (set_begin_y c v) = end_y c ∧
    0 ≤ (set_begin_y c v).cy ∧ (set_begin_y c v).x = c.x ∧
    (set_begin_y c v).cx = c.cx ∧ (set_begin_y c v).flipH = c.flipH := by
  obtain ⟨x, y, cx, cy, fH, fV⟩ := c
  simp only at h
  cases fV <;>
    rw [set_begin_y] <;>
    simp only [pyabs] <;>
    split_ifs <;>
    simp only [begin_y, end_y] <;>
    simp_all <;> omega

theorem set_end_y_ok (c : CxnSp) (v : Int) (h : 0 ≤ c.cy) :
    end_y (set_end_y c v) = v ∧ begin_y (set_end_y c v) = begin_y c ∧
    0 ≤ (set_end_y c v).cy ∧ (set_end_y c v).x = c.x ∧
    (set_end_y c v).cx = c.cx ∧ (set_end_y c v).flipH = c.flipH := by
  obtain ⟨x, y, cx, cy, fH, fV⟩ := c
  simp only at h
  cases fV <;>
    rw [set_end_y] <;>
    simp only [pyabs] <;>
    split_ifs <;>
    simp only [begin_y, end_y] <;>
    simp_all <;> omega

/-- Claim C10: for every connector state with nonnegative extents and
every integer value, each endpoint setter moves only its own endpoint:
the corresponding getter then reads back the assigned value, the
opposite endpoint is unchanged, the affected extent stays nonnegative,
and the perpendicular axis is untouched. -/
theorem claim_C10_connector_endpoint_setters (c : CxnSp) (v : Int)
    (hx : 0 ≤ c.cx) (hy : 0 ≤ c.cy) :
    (begin_x (set_begin_x c v) = v ∧ end_x (set_begin_x c v) = end_x c ∧
      0 ≤ (set_begin_x c v).cx ∧ (set_begin_x c v).y = c.y ∧
      (set_begin_x c v).cy = c.cy ∧ (set_begin_x c v).flipV = c.flipV) ∧
    (end_x (set_end_x c v) = v ∧ begin_x (set_end_x c v) = begin_x c ∧
      0 ≤ (set_end_x c v).cx ∧ (set_end_x c v).y = c.y ∧
      (set_end_x c v).cy = c.cy ∧ (set_end_x c v).flipV = c.flipV) ∧
    (begin_y (set_begin_y c v) = v ∧ end_y (set_begin_y c v) = end_y c ∧
      0 ≤ (set_begin_y c v).cy ∧ (set_begin_y c v).x = c.x ∧
      (set_begin_y c v).cx = c.cx ∧ (set_begin_y c v).flipH = c.flipH) ∧
    (end_y (set_end_y c v) = v ∧ begin_y (set_end_y c v) = begin_y c ∧
      0 ≤ (set_end_y c v).cy ∧ (set_end_y c v).x = c.x ∧
      (set_end_y c v).cx = c.cx ∧ (set_end_y c v).flipH = c.flipH) :=
  ⟨set_begin_x_ok c v hx, set_end_x_ok c v hx, set_begin_y_ok c v hy, set_end_y_ok c v hy⟩

/-- Witness for claim C10 at a concrete connector state and value:
moving the begin point far past the end point flips the shape, reads
back 100, and leaves the end point at its old position. -/
theorem claim_C10_witness :
    begin_x (set_begin_x cxnEx 100) = 100 ∧ end_x (set_begin_x cxnEx 100) = end_x cxnEx ∧
    0 ≤ (set_begin_x cxnEx 100).cx ∧ begin_y (set_begin_y cxnEx 100) = 100 ∧
    end_y (set_begin_y cxnEx 100) = end_y cxnEx :=
  ⟨(claim_C10_connector_endpoint_setters cxnEx 100 (by decide) (by decide)).1.1,
   (claim_C10_connector_endpoint_setters cxnEx 100 (by decide) (by decide)).1.2.1,
   (claim_C10_connector_endpoint_setters cxnEx 100 (by decide) (by decide)).1.2.2.1,
   (claim_C10_connector_endpoint_setters cxnEx 100 (by decide) (by decide)).2.2.1.1,
   (claim_C10_connector_endpoint_setters cxnEx 100 (by decide) (by decide)).2.2.1.2.1⟩

/-- Claim C1, amended: for a child descriptor with successor tags,
whenever the successor-tagged children of the parent appear in the order
of the successor list (ascending `succRank`, as in any parent laid out
in content-model order), an insert through the descriptor
(`_insert_<name>`/`_add_<name>`, both of which call
`insert_element_before`) places the new child so that every child whose
tag is one of the successor tags ends up after it; with an empty
successor list the insert always appends last.  (Without the ordering
precondition the invariant fails; see the counterexample.) -/
theorem claim_C1_insert_before_successors (succs : List String) (e elm : Elem)
    (hord : e.children.Pairwise (fun a b => rankLE succs a b = true)) :
    (∃ pre post,
      (e.insert_element_before elm succs).children = pre ++ elm :: post ∧
      e.children = pre ++ post ∧
      ∀ c ∈ pre, ∀ t ∈ succs, c.tag ≠ qn t) ∧
    (succs = [] → (e.insert_element_before elm succs).children = e.children ++ [elm]) := by
  constructor
  · cases hf : e.first_child_found_in succs with
    | none =>
      refine ⟨e.children, [], ?_, by simp, ?_⟩
      · simp [Elem.insert_element_before, hf]
      · intro c hc t ht
        exact fcfi_none hf t ht c hc
    | some s =>
      obtain ⟨ts1, t, ts2, hts, hts1free, hfind⟩ := fcfi_some hf
      have hn : e.children.find? (fun x => x.tag == qn t) = some s := hfind
      obtain ⟨pre, post, hch, hpre, hps⟩ := find_eq_some_split hn
      have hstag : s.tag = qn t := by simpa using hps
      have hprene : ∀ c ∈ pre, c.tag ≠ s.tag := by
        intro c hc
        have := hpre c hc
        rw [hstag]
        simpa using this
      have hins : (e.insert_element_before elm succs).children = pre ++ elm :: s :: post := by
        simp only [Elem.insert_element_before, hf]
        rw [hch]
        exact addpreviousTag_split elm pre post hprene rfl
      refine ⟨pre, s :: post, hins, hch, ?_⟩
      intro c hc u hu htag
      have hce : c ∈ e.children := by rw [hch]; exact List.mem_append_left _ hc
      rw [hts] at hu
      rcases List.mem_append.mp hu with hu1 | hu2
      · exact hts1free u hu1 c hce htag
      · rcases List.mem_cons.mp hu2 with h1 | h1
        · subst h1
          exact hprene c hc (htag.trans hstag.symm)
        · obtain ⟨ks, hks, hksle⟩ := succRank_le_of_pivot hstag.symm ts1
          have hcfree : ∀ w ∈ ts1, qn w ≠ c.tag := by
            intro w hw hqc
            exact hts1free w hw c hce hqc.symm
          have hct : qn t ≠ c.tag := by
            intro hqc
            exact hprene c hc (by rw [hstag, hqc])
          have humem : u ∈ succs := by
            rw [hts]
            exact List.mem_append_right _ (List.mem_cons_of_mem _ h1)
          obtain ⟨kc, hkc⟩ := succRank_exists_of_mem humem htag.symm
          have hkc2 : succRank (ts1 ++ t :: ts2) c = some kc := by rw [← hts]; exact hkc
          have hge := succRank_ge_of_prefix_free ts1 hcfree hct hkc2
          have hord2 : (pre ++ s :: post).Pairwise (fun a b => rankLE succs a b = true) := by
            rw [← hch]; exact hord
          have hR : rankLE succs c s = true :=
            (List.pairwise_append.mp hord2).2.2 c hc s (List.mem_cons_self _ _)
          have hks2 : succRank succs s = some ks := by rw [hts]; exact hks
          rw [rankLE, hkc, hks2] at hR
          simp only [decide_eq_true_eq] at hR
          omega
  · intro h
    subst h
    simp [Elem.insert_element_before, Elem.first_child_found_in]

/-- Counterexample for claim C1 as stated: with successors `(b, c)` and
a parent whose children are `[tagC, tagB]` (successor-tagged children
out of content-model order), inserting a new `tagA` child places it
between them, so the successor-tagged child `tagC` remains positioned
before the inserted element: the first `c`-tagged child has a smaller
index than the inserted `a`-tagged child. -/
theorem claim_C1_counterexample :
    (parentCB.insert_element_before tagAElem ["b", "c"]).children =
      [tagCElem, tagAElem, tagBElem] ∧
    tagCElem.tag = qn "c" ∧ ("c" ∈ ["b", "c"]) ∧ tagAElem.tag ≠ tagCElem.tag ∧
    ((parentCB.insert_element_before tagAElem ["b", "c"]).children.findIdx
        (fun c => c.tag == qn "c") <
      (parentCB.insert_element_before tagAElem ["b", "c"]).children.findIdx
        (fun c => c.tag == tagAElem.tag)) :=
  ⟨rfl, rfl, by decide, by decide, by decide⟩

/-- Witness for claim C1 at the ordering scenario of the spec: with
successors `(b, c)` and a parent currently containing `[tagC]`, the
inserted `tagA` child lands before every successor-tagged child and the
resulting order is `[tagA, tagC]`; with successors `()` the insert
appends last. -/
theorem claim_C1_witness :
    (∃ pre post,
      (parentC.insert_element_before tagAElem ["b", "c"]).children = pre ++ tagAElem :: post ∧
      parentC.children = pre ++ post ∧
      ∀ c ∈ pre, ∀ t ∈ ["b", "c"], c.tag ≠ qn t) ∧
    (parentC.insert_element_before tagAElem ["b", "c"]).children = [tagAElem, tagCElem] ∧
    (parentC.insert_element_before tagAElem []).children = parentC.children ++ [tagAElem] :=
  ⟨(claim_C1_insert_before_successors ["b", "c"] parentC tagAElem (by decide)).1,
   rfl,
   (claim_C1_insert_before_successors [] parentC tagAElem (by decide)).2 rfl⟩
